import Mathlib

/-!
Verification of the Geometry Resolution Engine of the contextual-redactor
repository.  The Python sources are shallowly embedded:

* `src/utils.py`   — fuzzy span matcher (`find_best_text_matches_batch`),
  rectangle merger (`merge_consecutive_word_rects`) and the per-finding
  resolution loop of `create_detailed_suggestions`;
* `src/measurement_utils.py` — `canvas_to_pdf_coords` / `pdf_to_canvas_coords`;
* `src/measurement_processor.py` — distance / perimeter / area and
  calibration scaling.

Python floats are modelled as `ℚ` (exact field arithmetic) except where the
code calls `math.sqrt`, which is modelled with `Real.sqrt` over `ℝ`.
Python code that can raise `ZeroDivisionError` is modelled with `Option`.

The Batteries rational-number operations are `@[irreducible]`, which blocks
`decide` on concrete inputs; we restore default reducibility for them here
(this changes nothing about their meaning).
-/

attribute [local semireducible] Rat.mul Rat.inv Rat.add Rat.sub

/-! ### RapidFuzz `fuzz.ratio`

`rapidfuzz.fuzz.ratio(a, b)` is the normalized InDel similarity
`100 * (|a| + |b| - dist) / (|a| + |b|)` where `dist` is the
insertion/deletion edit distance, i.e. `dist = |a| + |b| - 2 * lcs(a, b)`.
Hence `ratio = 100 * 2 * lcs(a, b) / (|a| + |b|)`, and `100.0` when both
strings are empty.  We define the longest-common-subsequence length with a
fuel parameter so that the definition is structurally recursive (and hence
evaluates inside the kernel). -/

def lcsAux : Nat → List Char → List Char → Nat
  | 0, _, _ => 0
  | _ + 1, [], _ => 0
  | _ + 1, _, [] => 0
  | fuel + 1, a :: as, b :: bs =>
    if a = b then lcsAux fuel as bs + 1
    else max (lcsAux fuel (a :: as) bs) (lcsAux fuel as (b :: bs))

def lcsLen (a b : List Char) : Nat := lcsAux (a.length + b.length) a b

/-- `fuzz.ratio` over exact rationals. -/
def fuzzScore (a b : List Char) : ℚ :=
  if a.length + b.length = 0 then 100
  else 100 * (2 * (lcsLen a b : ℚ)) / ((a.length : ℚ) + (b.length : ℚ))

/-! ### Normalization (src/utils.py lines 70 and 89)

Line 70 (target):  `text.lower().replace("'s","").replace("'","")
  .replace(".","").replace(",","").replace("(","").replace(")","").replace(" ","")`.
Line 89 (candidate): the same eight steps followed by three further
`.replace('"','')` steps (all three on the plain ASCII double quote).
Characters appearing inside Lean character-literal syntax awkwardly are
written with `Char.ofNat`. -/

def apoChar : Char := Char.ofNat 39

def sChar : Char := Char.ofNat 115

def dotChar : Char := Char.ofNat 46

def commaChar : Char := Char.ofNat 44

def lparChar : Char := Char.ofNat 40

def rparChar : Char := Char.ofNat 41

def spaceChar : Char := Char.ofNat 32

def quoteChar : Char := Char.ofNat 34

def lowerChars (l : List Char) : List Char := l.map Char.toLower

/-- Python `str.replace(c, "")` for a single character: drop every occurrence. -/
def removeChar (c : Char) (l : List Char) : List Char := l.filter (fun x => x != c)

/-- Python `str.replace("'s", "")`: left-to-right non-overlapping removal of the
two-character pattern apostrophe-then-s. -/
def stripPoss : List Char → List Char
  | a :: b :: rest =>
    if a = apoChar ∧ b = sChar then stripPoss rest else a :: stripPoss (b :: rest)
  | l => l

/-- Normalization of the target string (src/utils.py line 70). -/
def normTarget (l : List Char) : List Char :=
  removeChar spaceChar (removeChar rparChar (removeChar lparChar (removeChar commaChar
    (removeChar dotChar (removeChar apoChar (stripPoss (lowerChars l)))))))

/-- Normalization of a reconstructed candidate run (src/utils.py line 89): the
same chain as `normTarget` followed by the three double-quote removals. -/
def normCand (l : List Char) : List Char :=
  removeChar quoteChar (removeChar quoteChar (removeChar quoteChar (normTarget l)))

/-! ### Word layout and the span matcher (src/utils.py lines 58-106)

A `Slot` is one `{'word_obj': word, 'used': False}` dict of
`create_detailed_suggestions`.  The Python dicts are mutable and shared
between `words_by_page` and every filtered `words_to_search` list; we model
that aliasing by giving each slot a unique `id` and applying state updates
to the page-wide slot list by id. -/

structure Span where
  offset : Nat
  length : Nat
deriving DecidableEq

structure DocWord where
  content : String
  span : Span
  polygon : List ℚ
deriving DecidableEq

structure Slot where
  id : Nat
  word : DocWord
  used : Bool
deriving DecidableEq

/-- `"".join(w.content for w in candidate_words)` (line 88). -/
def reconstructText (run : List Slot) : List Char :=
  (run.map (fun s => s.word.content.data)).join

/-- `fuzz.ratio(norm_reconstructed, norm_text_to_find)` (line 92). -/
def candScore (target : String) (run : List Slot) : ℚ :=
  fuzzScore (normCand (reconstructText run)) (normTarget target.data)

def anyUsed (run : List Slot) : Bool := run.any (fun s => s.used)

/-- All candidate runs `words_to_search[i : j+1]` in the loop's iteration order
(outer `i` ascending, inner `j` ascending; lines 76-81). -/
def allSlices (ws : List Slot) : List (List Slot) :=
  (List.range ws.length).bind (fun i =>
    (List.range (ws.length - i)).map (fun d => (ws.drop i).take (d + 1)))

/-- One iteration of the double loop (lines 80-99).  The two
`if best_match_score == 100: break` statements are modelled by the leading
test: once the running best reaches 100 no later candidate is examined. -/
def matchStep (target : String) (best : List Slot × ℚ) (c : List Slot) : List Slot × ℚ :=
  if best.2 = 100 then best
  else if anyUsed c then best
  else if best.2 < candScore target c then (c, candScore target c) else best

/-- The per-target body of `find_best_text_matches_batch` (lines 69-104):
scan all candidate runs, keep the best, and return it when its score reaches
`min_score`, else the no-match value `([], 0)`. -/
def findBestTextMatch (target : String) (ws : List Slot) (minScore : ℚ) : List Slot × ℚ :=
  let best := (allSlices ws).foldl (matchStep target) ([], 0)
  if minScore ≤ best.2 then best else ([], 0)

/-- `find_best_text_matches_batch` (src/utils.py lines 58-106). -/
def find_best_text_matches_batch (targets : List String) (ws : List Slot)
    (minScore : ℚ := 90) : List (String × List Slot × ℚ) :=
  targets.map (fun t => (t, findBestTextMatch t ws minScore))

/-- The score accumulator of the scan, ignoring runs with a used slot. -/
def maxStep (t : String) (m : ℚ) (c : List Slot) : ℚ :=
  if anyUsed c then m else max m (candScore t c)

/-! ### Rectangles and `merge_consecutive_word_rects` (src/utils.py lines 25-55)

`fitz.Rect` is four floats.  `fitz.Rect()` is the empty rectangle
`(0, 0, 0, 0)`; a rect is empty when `x0 >= x1 or y0 >= y1`, and
`r |= s` is MuPDF's `fz_union_rect`: an empty operand is ignored, otherwise
the component-wise min/max bounding box is taken.  Python's `round` is
round-half-to-even. -/

structure Rect where
  x0 : ℚ
  y0 : ℚ
  x1 : ℚ
  y1 : ℚ
deriving DecidableEq

def Rect.isEmptyRect (r : Rect) : Bool := r.x1 ≤ r.x0 || r.y1 ≤ r.y0

def Rect.height (r : Rect) : ℚ := r.y1 - r.y0

def emptyRect : Rect := ⟨0, 0, 0, 0⟩

/-- `fz_union_rect` (the meaning of `merged_run |= r`). -/
def unionRect (a b : Rect) : Rect :=
  if a.isEmptyRect then b
  else if b.isEmptyRect then a
  else ⟨min a.x0 b.x0, min a.y0 b.y0, max a.x1 b.x1, max a.y1 b.y1⟩

/-- `merged_run = fitz.Rect(); for r in group: merged_run |= r`. -/
def unionList (rs : List Rect) : Rect := rs.foldl unionRect emptyRect

/-- Python's built-in `round` on an exact rational: round half to even. -/
def pyRound (q : ℚ) : ℤ :=
  if q - (⌊q⌋ : ℚ) < 1 / 2 then ⌊q⌋
  else if 1 / 2 < q - (⌊q⌋ : ℚ) then ⌊q⌋ + 1
  else if ⌊q⌋ % 2 = 0 then ⌊q⌋ else ⌊q⌋ + 1

/-- `lines[round(rect.y0)]` bucket key. -/
def keyOf (r : Rect) : ℤ := pyRound r.y0

/-- `sorted(lines.keys())`: the distinct bucket keys in ascending order.
(`defaultdict` iteration order is insertion order; sorting the deduplicated
key list gives the same ascending key sequence.) -/
def lineKeys (rs : List Rect) : List ℤ :=
  List.insertionSort (· ≤ ·) (rs.map keyOf).dedup

/-- The rectangles of one line bucket, in input order. -/
def bucket (rs : List Rect) (k : ℤ) : List Rect :=
  rs.filter (fun r => keyOf r == k)

/-- `sorted(lines[line_y], key=lambda r: r.x0)` is a stable sort by `x0`;
`List.insertionSort` is stable, hence extensionally the same list. -/
def rectLE (a b : Rect) : Prop := a.x0 ≤ b.x0

instance : DecidableRel rectLE := fun a b => inferInstanceAs (Decidable (a.x0 ≤ b.x0))

/-- Lines 40-42: `actual_gap <= max_gap`, i.e. the next rectangle joins the
current run when `current.x0 - prev.x1 ≤ prev.height * 0.75`. -/
def joinsB (prev r : Rect) : Prop := r.x0 - prev.x1 ≤ prev.height * (3 / 4)

instance (a b : Rect) : Decidable (joinsB a b) :=
  inferInstanceAs (Decidable (b.x0 - a.x1 ≤ a.height * (3 / 4)))

/-- The inner run-accumulation loop (lines 36-54): `group` is the current
`current_run_group` (always nonempty), the second argument the remaining
rectangles of the sorted line. -/
def runLoop : List Rect → List Rect → List Rect
  | group, [] => [unionList group]
  | group, r :: rest =>
    let prev := group.getLastD r
    if joinsB prev r then runLoop (group ++ [r]) rest
    else unionList group :: runLoop [r] rest

/-- Process one sorted line bucket (lines 34-54). -/
def lineMergeRects : List Rect → List Rect
  | [] => []
  | r :: rest => runLoop [r] rest

/-- `merge_consecutive_word_rects` (src/utils.py lines 25-55). -/
def merge_consecutive_word_rects (rs : List Rect) : List Rect :=
  if rs = [] then []
  else (lineKeys rs).bind (fun k => lineMergeRects (List.insertionSort rectLE (bucket rs k)))

instance : IsTotal Rect rectLE := ⟨fun a b => le_total a.x0 b.x0⟩

instance : IsTrans Rect rectLE := ⟨fun _ _ _ h1 h2 => le_trans h1 h2⟩

/-- A partition of a sorted line into the runs described by the spec: the
chunks concatenate to the line, each chunk is nonempty, inside a chunk every
rectangle joins its predecessor (gap at most 0.75 of the previous height),
and at every chunk boundary the join condition fails. -/
def ChunksOf (l : List Rect) (cs : List (List Rect)) : Prop :=
  cs.join = l ∧ (∀ c ∈ cs, c ≠ []) ∧ (∀ c ∈ cs, List.Chain' joinsB c) ∧
  List.Chain' (fun c d => ¬ joinsB (c.getLastD emptyRect) (d.headD emptyRect)) cs

/-! ### The per-finding resolution loop of `create_detailed_suggestions`
(src/utils.py lines 109-233)

The function builds one mutable slot list per page (`words_by_page`) and,
page by page, walks the page's findings in their original grouped order
(lines 178-209).  We model one page's pass: the slot pools of distinct pages
are disjoint Python lists, so cross-page interaction is impossible.  The
filtered `words_to_search` lists alias the page-wide dicts; marking `used`
through a filtered list is modelled by updating the page slot list by id. -/

structure ParaRef where
  offset : Nat
  length : Nat
deriving DecidableEq

inductive FindingSource
  | para (p : ParaRef)
  | page
deriving DecidableEq

structure Finding where
  text : String
  source : FindingSource
deriving DecidableEq

/-- Lines 159-168: for a paragraph source keep the words whose span lies inside
the paragraph span; for a page source search all words of the page. -/
def wordsToSearch (slots : List Slot) : FindingSource → List Slot
  | FindingSource.para p =>
    slots.filter (fun s =>
      decide (p.offset ≤ s.word.span.offset ∧
        s.word.span.offset + s.word.span.length ≤ p.offset + p.length))
  | FindingSource.page => slots

/-- `scaling_factor = 72.0` (line 119). -/
def scaling_factor : ℚ := 72

/-- Lines 196-199: `fitz.Point(polygon[k] * sf, polygon[k+1] * sf)` for
`k = 0, 2, 4, ...`. -/
def polyPoints : List ℚ → List (ℚ × ℚ)
  | x :: y :: rest => (x * scaling_factor, y * scaling_factor) :: polyPoints rest
  | _ => []

/-- `fitz.Quad(points).rect`: the bounding box of the quad's points. -/
def quadRect : List (ℚ × ℚ) → Rect
  | [] => emptyRect
  | p :: rest =>
    ⟨rest.foldl (fun m q => min m q.1) p.1, rest.foldl (fun m q => min m q.2) p.2,
     rest.foldl (fun m q => max m q.1) p.1, rest.foldl (fun m q => max m q.2) p.2⟩

/-- Lines 193-200: one rect per matched word that has a usable polygon
(`word_obj.polygon and len(word_obj.polygon) >= 8`). -/
def wordRects (run : List Slot) : List Rect :=
  run.filterMap (fun s =>
    if 8 ≤ s.word.polygon.length then some (quadRect (polyPoints s.word.polygon)) else none)

structure Suggestion where
  id : Nat
  text : String
  pageNum : Nat
  rects : List Rect
  /-- ids of the matched slots whose polygons the rects were computed from
  (instrumentation used to state word exclusivity). -/
  slotIds : List Nat
deriving DecidableEq

structure ResolveState where
  slots : List Slot
  sugs : List Suggestion
  counter : Nat
deriving DecidableEq

/-- Lines 188-189: `w_info['used'] = True` through the shared dicts. -/
def markUsed (slots : List Slot) (ids : List Nat) : List Slot :=
  slots.map (fun s => if s.id ∈ ids then { s with used := true } else s)

/-- One iteration of the loop at lines 178-209: match the finding, and on
success (`score >= 90`) mark the matched slots used, convert polygons to
rects, and append a suggestion only when at least one rect was produced. -/
def resolveStep (pageNum : Nat) (st : ResolveState) (f : Finding) : ResolveState :=
  let m := findBestTextMatch f.text (wordsToSearch st.slots f.source) 90
  if 90 ≤ m.2 then
    let slots2 := markUsed st.slots (m.1.map (fun s => s.id))
    let rects := wordRects m.1
    if rects = [] then { st with slots := slots2 }
    else
      { slots := slots2,
        sugs := st.sugs ++ [{ id := st.counter, text := f.text, pageNum := pageNum,
                              rects := merge_consecutive_word_rects rects,
                              slotIds := m.1.map (fun s => s.id) }],
        counter := st.counter + 1 }
  else st

/-- One page's resolution pass (the body of the loop at line 144). -/
def resolvePage (pageNum : Nat) (slots : List Slot) (fs : List Finding) : ResolveState :=
  fs.foldl (resolveStep pageNum) ⟨slots, [], 0⟩

/-- Used slot ids of a state. -/
def usedIds (slots : List Slot) : List Nat := (slots.filter (fun s => s.used)).map (fun s => s.id)

/-- Word-exclusivity relation between two suggestions: no shared slot id. -/
def SugDisj (g1 g2 : Suggestion) : Prop := ∀ i ∈ g1.slotIds, i ∉ g2.slotIds

/-- Invariant carried through one resolution pass. -/
def ResolveInv (σ0 : List Slot) (st : ResolveState) : Prop :=
  st.slots.map Slot.id = σ0.map Slot.id ∧
  List.Pairwise SugDisj st.sugs ∧
  ∀ g ∈ st.sugs, ∀ i ∈ g.slotIds, i ∈ usedIds st.slots

/-! ### Coordinate transforms (src/measurement_utils.py lines 10-93)

Pure field arithmetic over `ℚ`; a Python `ZeroDivisionError` is `none`.
Note the functions perform no input validation whatsoever. -/

/-- `canvas_to_pdf_coords` (lines 10-51).  Divisors: `preview_dpi` (line 33),
`canvas_width` (line 40), `canvas_height` (line 41). -/
def canvas_to_pdf_coords (canvas_x canvas_y canvas_width canvas_height
    pdf_width pdf_height preview_dpi : ℚ) : Option (ℚ × ℚ) :=
  if preview_dpi = 0 then none
  else if canvas_width = 0 then none
  else if canvas_height = 0 then none
  else
    let dpi_scale := 72 / preview_dpi
    let image_width := pdf_width * (preview_dpi / 72)
    let image_height := pdf_height * (preview_dpi / 72)
    let scale_x := image_width / canvas_width
    let scale_y := image_height / canvas_height
    some (canvas_x * scale_x * dpi_scale, canvas_y * scale_y * dpi_scale)

/-- `pdf_to_canvas_coords` (lines 54-93).  Divisors: `image_width =
pdf_width * dpi_scale` (line 87) and `image_height` (line 88). -/
def pdf_to_canvas_coords (pdf_x pdf_y canvas_width canvas_height
    pdf_width pdf_height preview_dpi : ℚ) : Option (ℚ × ℚ) :=
  let dpi_scale := preview_dpi / 72
  if pdf_width * dpi_scale = 0 then none
  else if pdf_height * dpi_scale = 0 then none
  else
    some (pdf_x * dpi_scale * (canvas_width / (pdf_width * dpi_scale)),
          pdf_y * dpi_scale * (canvas_height / (pdf_height * dpi_scale)))

/-! ### Measurement engine (src/measurement_processor.py)

`math.sqrt` forces real arithmetic, hence these few definitions live in `ℝ`
and are noncomputable; every claim about them is settled at closed concrete
inputs. -/

/-- `MeasurementProcessor.calculate_distance` (lines 113-125). -/
noncomputable def calculate_distance (p1 p2 : ℝ × ℝ) : ℝ :=
  Real.sqrt ((p2.1 - p1.1) ^ 2 + (p2.2 - p1.2) ^ 2)

/-- `points[i]` with Python's guarantee `i < len(points)`. -/
def idxPoint (pts : List (ℝ × ℝ)) (i : Nat) : ℝ × ℝ := pts.getD i (0, 0)

/-- `MeasurementProcessor.calculate_perimeter` (lines 127-147). -/
noncomputable def calculate_perimeter (pts : List (ℝ × ℝ)) : ℝ :=
  if pts.length < 2 then 0
  else (List.range pts.length).foldl
    (fun acc i => acc + calculate_distance (idxPoint pts i) (idxPoint pts ((i + 1) % pts.length)))
    0

/-- `MeasurementProcessor.calculate_area` (lines 149-171), Shoelace formula. -/
noncomputable def calculate_area (pts : List (ℝ × ℝ)) : ℝ :=
  if pts.length < 3 then 0
  else |(List.range pts.length).foldl
    (fun acc i => acc + (idxPoint pts i).1 * (idxPoint pts ((i + 1) % pts.length)).2
      - (idxPoint pts ((i + 1) % pts.length)).1 * (idxPoint pts i).2) 0| / 2

/-- `ScaleCalibration` (lines 32-56); the unit tag is irrelevant to the
numeric claims. -/
structure ScaleCalibration where
  pdf_distance : ℝ
  real_distance : ℝ

/-- `ScaleCalibration.get_conversion_factor` (lines 39-41). -/
noncomputable def get_conversion_factor (c : ScaleCalibration) : ℝ :=
  c.real_distance / c.pdf_distance

/-- The `(value, real_value)` pair computed by `measure_perimeter`
(lines 227-229). -/
noncomputable def measure_perimeter_values (pts : List (ℝ × ℝ)) (cal : ScaleCalibration) : ℝ × ℝ :=
  (calculate_perimeter pts, calculate_perimeter pts * get_conversion_factor cal)

/-- The `(value, real_value)` pair computed by `measure_area`
(lines 262-265): the conversion factor is squared for areas. -/
noncomputable def measure_area_values (pts : List (ℝ × ℝ)) (cal : ScaleCalibration) : ℝ × ℝ :=
  (calculate_area pts, calculate_area pts * get_conversion_factor cal ^ 2)

/-! ### Lemmas about the similarity score -/

theorem lcsAux_stable :
    ∀ (f₁ f₂ : Nat) (a b : List Char),
      a.length + b.length ≤ f₁ → a.length + b.length ≤ f₂ →
      lcsAux f₁ a b = lcsAux f₂ a b := by
  intro f₁
  induction f₁ with
  | zero =>
    intro f₂ a b h₁ _
    have ha : a = [] := by
      cases a with
      | nil => rfl
      | cons x xs => simp at h₁
    subst ha
    cases f₂ with
    | zero => rfl
    | succ n => simp [lcsAux]
  | succ n ih =>
    intro f₂ a b h₁ h₂
    cases a with
    | nil =>
      cases f₂ with
      | zero => simp [lcsAux]
      | succ m => simp [lcsAux]
    | cons x xs =>
      cases b with
      | nil =>
        cases f₂ with
        | zero => simp at h₂
        | succ m => simp [lcsAux]
      | cons y ys =>
        cases f₂ with
        | zero => simp at h₂
        | succ m =>
          simp only [lcsAux]
          simp only [List.length_cons] at h₁ h₂
          by_cases hxy : x = y
          · rw [if_pos hxy, if_pos hxy, ih m xs ys (by omega) (by omega)]
          · rw [if_neg hxy, if_neg hxy,
              ih m (x :: xs) ys (by simp only [List.length_cons]; omega)
                (by simp only [List.length_cons]; omega),
              ih m xs (y :: ys) (by simp only [List.length_cons]; omega)
                (by simp only [List.length_cons]; omega)]

theorem lcsLen_nil_left (b : List Char) : lcsLen [] b = 0 := by
  cases b <;> simp [lcsLen, lcsAux]

theorem lcsLen_nil_right (a : List Char) : lcsLen a [] = 0 := by
  cases a <;> simp [lcsLen, lcsAux]

theorem lcsLen_cons_cons (x y : Char) (xs ys : List Char) :
    lcsLen (x :: xs) (y :: ys) =
      if x = y then lcsLen xs ys + 1
      else max (lcsLen (x :: xs) ys) (lcsLen xs (y :: ys)) := by
  unfold lcsLen
  have hlen : (x :: xs).length + (y :: ys).length = (xs.length + ys.length + 1) + 1 := by
    simp only [List.length_cons]; omega
  rw [hlen]
  simp only [lcsAux]
  by_cases hxy : x = y
  · rw [if_pos hxy, if_pos hxy,
      lcsAux_stable _ (xs.length + ys.length) xs ys (by omega) le_rfl]
  · rw [if_neg hxy, if_neg hxy,
      lcsAux_stable _ ((x :: xs).length + ys.length) (x :: xs) ys
        (by simp only [List.length_cons]; omega) le_rfl,
      lcsAux_stable _ (xs.length + (y :: ys).length) xs (y :: ys)
        (by simp only [List.length_cons]; omega) le_rfl]

theorem lcsLen_le_left :
    ∀ (n : Nat) (a b : List Char), a.length + b.length ≤ n →
      lcsLen a b ≤ a.length := by
  intro n
  induction n with
  | zero =>
    intro a b h
    have : a = [] := by cases a <;> simp_all
    subst this
    simp [lcsLen_nil_left]
  | succ n ih =>
    intro a b h
    cases a with
    | nil => simp [lcsLen_nil_left]
    | cons x xs =>
      cases b with
      | nil => simp [lcsLen_nil_right]
      | cons y ys =>
        rw [lcsLen_cons_cons]
        simp only [List.length_cons] at h ⊢
        by_cases hxy : x = y
        · rw [if_pos hxy]
          have := ih xs ys (by omega)
          omega
        · rw [if_neg hxy]
          have h₁ := ih (x :: xs) ys (by simp only [List.length_cons]; omega)
          have h₂ := ih xs (y :: ys) (by simp only [List.length_cons]; omega)
          simp only [List.length_cons] at h₁
          exact Nat.max_le.mpr ⟨h₁, by omega⟩

theorem lcsLen_comm :
    ∀ (n : Nat) (a b : List Char), a.length + b.length ≤ n →
      lcsLen a b = lcsLen b a := by
  intro n
  induction n with
  | zero =>
    intro a b h
    have ha : a = [] := by cases a <;> simp_all
    have hb : b = [] := by cases b <;> simp_all
    subst ha; subst hb; rfl
  | succ n ih =>
    intro a b h
    cases a with
    | nil => simp [lcsLen_nil_left, lcsLen_nil_right]
    | cons x xs =>
      cases b with
      | nil => simp [lcsLen_nil_left, lcsLen_nil_right]
      | cons y ys =>
        rw [lcsLen_cons_cons, lcsLen_cons_cons]
        simp only [List.length_cons] at h
        by_cases hxy : x = y
        · have hyx : y = x := hxy.symm
          rw [if_pos hxy, if_pos hyx, ih xs ys (by omega)]
        · have hyx : ¬ y = x := fun hc => hxy hc.symm
          rw [if_neg hxy, if_neg hyx,
            ih (x :: xs) ys (by simp only [List.length_cons]; omega),
            ih xs (y :: ys) (by simp only [List.length_cons]; omega)]
          exact Nat.max_comm _ _

theorem lcsLen_le_right (a b : List Char) : lcsLen a b ≤ b.length := by
  rw [lcsLen_comm (a.length + b.length) a b le_rfl]
  exact lcsLen_le_left (b.length + a.length) b a le_rfl

theorem lcsLen_self : ∀ (a : List Char), lcsLen a a = a.length := by
  intro a
  induction a with
  | nil => simp [lcsLen_nil_left]
  | cons x xs ih =>
    rw [lcsLen_cons_cons, if_pos rfl, ih]
    simp

theorem eq_of_lcsLen_full :
    ∀ (n : Nat) (a b : List Char), a.length + b.length ≤ n →
      lcsLen a b = a.length → lcsLen a b = b.length → a = b := by
  intro n
  induction n with
  | zero =>
    intro a b h _ _
    have ha : a = [] := by cases a <;> simp_all
    have hb : b = [] := by cases b <;> simp_all
    simp [ha, hb]
  | succ n ih =>
    intro a b h h₁ h₂
    cases a with
    | nil =>
      rw [lcsLen_nil_left] at h₂
      cases b with
      | nil => rfl
      | cons y ys => simp at h₂
    | cons x xs =>
      cases b with
      | nil =>
        rw [lcsLen_nil_right] at h₁
        simp at h₁
      | cons y ys =>
        rw [lcsLen_cons_cons] at h₁ h₂
        simp only [List.length_cons] at h h₁ h₂
        by_cases hxy : x = y
        · subst hxy
          rw [if_pos rfl] at h₁ h₂
          have := ih xs ys (by omega) (by omega) (by omega)
          simp [this]
        · exfalso
          rw [if_neg hxy] at h₁ h₂
          have b₁ := lcsLen_le_right (x :: xs) ys
          have b₂ := lcsLen_le_left (xs.length + (y :: ys).length) xs (y :: ys) le_rfl
          simp only [List.length_cons] at b₁ b₂
          have hmax : max (lcsLen (x :: xs) ys) (lcsLen xs (y :: ys)) ≤ xs.length := by
            exact Nat.max_le.mpr ⟨by omega, b₂⟩
          omega

theorem fuzzScore_le_100 (a b : List Char) : fuzzScore a b ≤ 100 := by
  unfold fuzzScore
  split
  · exact le_rfl
  · rename_i h
    have hpos : (0 : ℚ) < (a.length : ℚ) + (b.length : ℚ) := by
      have : 0 < a.length + b.length := Nat.pos_of_ne_zero h
      exact_mod_cast this
    rw [div_le_iff₀ hpos]
    have h₁ := lcsLen_le_left (a.length + b.length) a b le_rfl
    have h₂ := lcsLen_le_right a b
    have hc : (2 * (lcsLen a b : ℚ)) ≤ (a.length : ℚ) + (b.length : ℚ) := by
      have : 2 * lcsLen a b ≤ a.length + b.length := by omega
      exact_mod_cast this
    nlinarith

theorem fuzzScore_comm (a b : List Char) : fuzzScore a b = fuzzScore b a := by
  unfold fuzzScore
  rw [lcsLen_comm (a.length + b.length) a b le_rfl]
  by_cases h : a.length + b.length = 0
  · have h' : b.length + a.length = 0 := by omega
    simp [h, h']
  · have h' : ¬ b.length + a.length = 0 := by omega
    rw [if_neg h, if_neg h']
    ring

theorem fuzzScore_eq_100_iff (a b : List Char) : fuzzScore a b = 100 ↔ a = b := by
  constructor
  · intro h
    unfold fuzzScore at h
    by_cases hz : a.length + b.length = 0
    · have ha : a = [] := by cases a <;> simp_all
      have hb : b = [] := by cases b <;> simp_all
      simp [ha, hb]
    · rw [if_neg hz] at h
      have hpos : (0 : ℚ) < (a.length : ℚ) + (b.length : ℚ) := by
        have : 0 < a.length + b.length := Nat.pos_of_ne_zero hz
        exact_mod_cast this
      rw [div_eq_iff (ne_of_gt hpos)] at h
      have hnat : 2 * lcsLen a b = a.length + b.length := by
        have hq : (2 * (lcsLen a b : ℚ)) = (a.length : ℚ) + (b.length : ℚ) := by
          nlinarith
        exact_mod_cast hq
      have hb₁ := lcsLen_le_left (a.length + b.length) a b le_rfl
      have hb₂ := lcsLen_le_right a b
      exact eq_of_lcsLen_full (a.length + b.length) a b le_rfl (by omega) (by omega)
  · intro h
    subst h
    unfold fuzzScore
    by_cases hz : a.length + a.length = 0
    · simp [hz]
    · rw [if_neg hz, lcsLen_self]
      have hpos : (0 : ℚ) < (a.length : ℚ) + (a.length : ℚ) := by
        have : 0 < a.length + a.length := Nat.pos_of_ne_zero hz
        exact_mod_cast this
      field_simp
      ring

/-! ### Matcher lemmas -/

theorem candScore_le_100 (t : String) (c : List Slot) : candScore t c ≤ 100 :=
  fuzzScore_le_100 _ _

theorem matchFold_spec (t : String) :
    ∀ (cs : List (List Slot)) (b : List Slot × ℚ), b.2 ≤ 100 →
      (cs.foldl (matchStep t) b).2 = cs.foldl (maxStep t) b.2 ∧
      (cs.foldl (matchStep t) b = b ∨
        ((cs.foldl (matchStep t) b).1 ∈ cs ∧
          anyUsed (cs.foldl (matchStep t) b).1 = false ∧
          candScore t (cs.foldl (matchStep t) b).1 = (cs.foldl (matchStep t) b).2)) := by
  intro cs
  induction cs with
  | nil => intro b _; exact ⟨rfl, Or.inl rfl⟩
  | cons c cs ih =>
    intro b hb
    simp only [List.foldl_cons]
    by_cases h100 : b.2 = 100
    · have hms : matchStep t b c = b := by unfold matchStep; rw [if_pos h100]
      have hmx : maxStep t b.2 c = b.2 := by
        unfold maxStep
        split
        · rfl
        · rw [h100]
          exact max_eq_left (candScore_le_100 t c)
      rw [hms, hmx]
      rcases ih b hb with ⟨h1, h2⟩
      refine ⟨h1, ?_⟩
      rcases h2 with h2 | ⟨hmem, hau, hcs⟩
      · exact Or.inl h2
      · exact Or.inr ⟨List.mem_cons_of_mem _ hmem, hau, hcs⟩
    · by_cases hused : anyUsed c
      · have hms : matchStep t b c = b := by
          unfold matchStep; rw [if_neg h100, if_pos hused]
        have hmx : maxStep t b.2 c = b.2 := by unfold maxStep; rw [if_pos hused]
        rw [hms, hmx]
        rcases ih b hb with ⟨h1, h2⟩
        refine ⟨h1, ?_⟩
        rcases h2 with h2 | ⟨hmem, hau, hcs⟩
        · exact Or.inl h2
        · exact Or.inr ⟨List.mem_cons_of_mem _ hmem, hau, hcs⟩
      · by_cases hlt : b.2 < candScore t c
        · have hms : matchStep t b c = (c, candScore t c) := by
            unfold matchStep; rw [if_neg h100, if_neg hused, if_pos hlt]
          have hmx : maxStep t b.2 c = candScore t c := by
            unfold maxStep; rw [if_neg hused]
            exact max_eq_right (le_of_lt hlt)
          rw [hms, hmx]
          rcases ih (c, candScore t c) (candScore_le_100 t c) with ⟨h1, h2⟩
          refine ⟨h1, ?_⟩
          rcases h2 with h2 | ⟨hmem, hau, hcs⟩
          · rw [h2]
            exact Or.inr ⟨List.mem_cons_self _ _, by simpa using hused, rfl⟩
          · exact Or.inr ⟨List.mem_cons_of_mem _ hmem, hau, hcs⟩
        · have hms : matchStep t b c = b := by
            unfold matchStep; rw [if_neg h100, if_neg hused, if_neg hlt]
          have hmx : maxStep t b.2 c = b.2 := by
            unfold maxStep; rw [if_neg hused]
            exact max_eq_left (le_of_not_lt hlt)
          rw [hms, hmx]
          rcases ih b hb with ⟨h1, h2⟩
          refine ⟨h1, ?_⟩
          rcases h2 with h2 | ⟨hmem, hau, hcs⟩
          · exact Or.inl h2
          · exact Or.inr ⟨List.mem_cons_of_mem _ hmem, hau, hcs⟩

theorem maxFold_init_le (t : String) :
    ∀ (cs : List (List Slot)) (b : ℚ), b ≤ cs.foldl (maxStep t) b := by
  intro cs
  induction cs with
  | nil => intro b; exact le_rfl
  | cons c cs ih =>
    intro b
    refine le_trans ?_ (ih (maxStep t b c))
    unfold maxStep
    split
    · exact le_rfl
    · exact le_max_left _ _

theorem le_maxFold (t : String) :
    ∀ (cs : List (List Slot)) (b : ℚ) (c : List Slot),
      c ∈ cs → anyUsed c = false → candScore t c ≤ cs.foldl (maxStep t) b := by
  intro cs
  induction cs with
  | nil => intro b c h _; exact absurd h (List.not_mem_nil c)
  | cons c' cs ih =>
    intro b c hmem hau
    rcases List.mem_cons.mp hmem with h | h
    · subst h
      refine le_trans ?_ (maxFold_init_le t cs (maxStep t b c))
      unfold maxStep
      rw [if_neg (by rw [hau]; exact Bool.false_ne_true)]
      exact le_max_right _ _
    · exact ih (maxStep t b c') c h hau

theorem mem_allSlices (ws : List Slot) (c : List Slot) (h : c ∈ allSlices ws) :
    c ≠ [] ∧ ∃ pre post, ws = pre ++ c ++ post := by
  unfold allSlices at h
  rw [List.mem_bind] at h
  obtain ⟨i, hi, hc⟩ := h
  rw [List.mem_range] at hi
  rw [List.mem_map] at hc
  obtain ⟨d, hd, hc⟩ := hc
  rw [List.mem_range] at hd
  subst hc
  constructor
  · intro hnil
    have := congrArg List.length hnil
    simp only [List.length_take, List.length_drop, List.length_nil] at this
    omega
  · refine ⟨ws.take i, (ws.drop i).drop (d + 1), ?_⟩
    rw [List.append_assoc, List.take_append_drop, List.take_append_drop]

theorem findBest_success (t : String) (ws : List Slot) (minScore : ℚ)
    (hpos : 0 < minScore) (h : minScore ≤ (findBestTextMatch t ws minScore).2) :
    (findBestTextMatch t ws minScore).1 ∈ allSlices ws ∧
    anyUsed (findBestTextMatch t ws minScore).1 = false ∧
    candScore t (findBestTextMatch t ws minScore).1 = (findBestTextMatch t ws minScore).2 ∧
    (findBestTextMatch t ws minScore).2 = (allSlices ws).foldl (maxStep t) 0 := by
  have hspec := matchFold_spec t (allSlices ws) ([], 0) (by norm_num)
  unfold findBestTextMatch at h ⊢
  by_cases hif : minScore ≤ ((allSlices ws).foldl (matchStep t) ([], 0)).2
  · rw [if_pos hif] at h ⊢
    rcases hspec with ⟨h1, h2⟩
    rcases h2 with h2 | ⟨hmem, hau, hcs⟩
    · exfalso
      rw [h2] at hif
      simp only at hif
      exact absurd (lt_of_lt_of_le hpos hif) (lt_irrefl 0)
    · exact ⟨hmem, hau, hcs, h1⟩
  · rw [if_neg hif] at h
    simp only at h
    exact absurd (lt_of_lt_of_le hpos h) (lt_irrefl 0)

theorem findBest_fail (t : String) (ws : List Slot) (minScore : ℚ)
    (h : (findBestTextMatch t ws minScore).2 < minScore) :
    findBestTextMatch t ws minScore = ([], 0) := by
  unfold findBestTextMatch at h ⊢
  by_cases hif : minScore ≤ ((allSlices ws).foldl (matchStep t) ([], 0)).2
  · rw [if_pos hif] at h
    exact absurd hif (not_le_of_lt h)
  · rw [if_neg hif]

/-- C3: for every target, candidate list and minScore (default 90), the span
matcher returns a contiguous run of not-yet-consumed slots achieving the
maximum similarity score over all such runs whenever that score reaches
minScore, and the no-match value `([], 0)` otherwise; the matcher itself
never touches any consumed flag (it is a pure function of the slot list),
and the resolver commits `used := true` only after a winning match is
accepted — on a failed match the state is returned unchanged, so failed
candidates never lock words. -/
theorem c3_matcher_best_run_and_commit_on_accept_only :
    (∀ (t : String) (ws : List Slot) (m : ℚ), 0 < m →
      (m ≤ (findBestTextMatch t ws m).2 →
        (findBestTextMatch t ws m).1 ≠ [] ∧
        (∃ pre post, ws = pre ++ (findBestTextMatch t ws m).1 ++ post) ∧
        anyUsed (findBestTextMatch t ws m).1 = false ∧
        candScore t (findBestTextMatch t ws m).1 = (findBestTextMatch t ws m).2 ∧
        (∀ c ∈ allSlices ws, anyUsed c = false →
          candScore t c ≤ (findBestTextMatch t ws m).2)) ∧
      ((findBestTextMatch t ws m).2 < m → findBestTextMatch t ws m = ([], 0))) ∧
    (∀ (p : Nat) (st : ResolveState) (f : Finding),
      (findBestTextMatch f.text (wordsToSearch st.slots f.source) 90).2 < 90 →
      resolveStep p st f = st) := by
  constructor
  · intro t ws m hm
    constructor
    · intro h
      obtain ⟨hmem, hau, hcs, hmax⟩ := findBest_success t ws m hm h
      obtain ⟨hne, pre, post, hdecomp⟩ := mem_allSlices ws _ hmem
      refine ⟨hne, ⟨pre, post, hdecomp⟩, hau, hcs, ?_⟩
      intro c hc hcau
      rw [hmax]
      exact le_maxFold t (allSlices ws) 0 c hc hcau
    · intro h
      exact findBest_fail t ws m h
  · intro p st f h
    simp only [resolveStep]
    rw [if_neg (not_le_of_lt h)]

theorem c3_witness :
    (0 : ℚ) < 90 ∧
    90 ≤ (findBestTextMatch "ab" [⟨0, ⟨"ab", ⟨0, 2⟩, []⟩, false⟩] 90).2 ∧
    ((findBestTextMatch "ab" [⟨0, ⟨"ab", ⟨0, 2⟩, []⟩, false⟩] 90).1 ≠ [] ∧
      (∃ pre post,
        [(⟨0, ⟨"ab", ⟨0, 2⟩, []⟩, false⟩ : Slot)] =
          pre ++ (findBestTextMatch "ab" [⟨0, ⟨"ab", ⟨0, 2⟩, []⟩, false⟩] 90).1 ++ post) ∧
      anyUsed (findBestTextMatch "ab" [⟨0, ⟨"ab", ⟨0, 2⟩, []⟩, false⟩] 90).1 = false ∧
      candScore "ab" (findBestTextMatch "ab" [⟨0, ⟨"ab", ⟨0, 2⟩, []⟩, false⟩] 90).1 =
        (findBestTextMatch "ab" [⟨0, ⟨"ab", ⟨0, 2⟩, []⟩, false⟩] 90).2 ∧
      (∀ c ∈ allSlices [(⟨0, ⟨"ab", ⟨0, 2⟩, []⟩, false⟩ : Slot)], anyUsed c = false →
        candScore "ab" c ≤ (findBestTextMatch "ab" [⟨0, ⟨"ab", ⟨0, 2⟩, []⟩, false⟩] 90).2)) ∧
    resolveStep 0 ⟨[], [], 0⟩ ⟨"x", FindingSource.page⟩ = ⟨[], [], 0⟩ :=
  ⟨by norm_num, by decide,
    (c3_matcher_best_run_and_commit_on_accept_only.1 "ab"
      [⟨0, ⟨"ab", ⟨0, 2⟩, []⟩, false⟩] 90 (by norm_num)).1 (by decide),
    c3_matcher_best_run_and_commit_on_accept_only.2 0 ⟨[], [], 0⟩
      ⟨"x", FindingSource.page⟩ (by decide)⟩

/-! ### Resolver lemmas -/

theorem allSlices_sub (ws c : List Slot) (h : c ∈ allSlices ws) :
    ∀ s ∈ c, s ∈ ws := by
  obtain ⟨-, pre, post, hdec⟩ := mem_allSlices ws c h
  intro s hs
  rw [hdec]
  simp only [List.mem_append]
  exact Or.inl (Or.inr hs)

theorem wordsToSearch_sub (σ : List Slot) (src : FindingSource) :
    ∀ s ∈ wordsToSearch σ src, s ∈ σ := by
  intro s hs
  cases src with
  | para p => exact List.mem_of_mem_filter hs
  | page => exact hs

theorem markUsed_map_id (σ : List Slot) (ids : List Nat) :
    (markUsed σ ids).map Slot.id = σ.map Slot.id := by
  induction σ with
  | nil => rfl
  | cons s σ ih =>
    simp only [markUsed, List.map_cons] at ih ⊢
    rw [ih]
    congr 1
    split <;> rfl

theorem mem_usedIds (σ : List Slot) (i : Nat) :
    i ∈ usedIds σ ↔ ∃ s ∈ σ, s.used = true ∧ s.id = i := by
  unfold usedIds
  simp only [List.mem_map, List.mem_filter]
  constructor
  · rintro ⟨s, ⟨hs, hu⟩, hid⟩
    exact ⟨s, hs, hu, hid⟩
  · rintro ⟨s, hs, hu, hid⟩
    exact ⟨s, ⟨hs, hu⟩, hid⟩

theorem usedIds_markUsed_super (σ : List Slot) (ids : List Nat) (i : Nat)
    (h : i ∈ usedIds σ) : i ∈ usedIds (markUsed σ ids) := by
  rw [mem_usedIds] at h ⊢
  obtain ⟨s, hs, hu, hid⟩ := h
  refine ⟨if s.id ∈ ids then { s with used := true } else s,
    List.mem_map_of_mem _ hs, ?_, ?_⟩
  · split <;> simp [hu]
  · split <;> simpa using hid

theorem usedIds_markUsed_of_mem (σ : List Slot) (ids : List Nat) (s : Slot)
    (hs : s ∈ σ) (hid : s.id ∈ ids) : s.id ∈ usedIds (markUsed σ ids) := by
  rw [mem_usedIds]
  refine ⟨{ s with used := true }, ?_, rfl, rfl⟩
  unfold markUsed
  have h2 := List.mem_map_of_mem
    (fun s' : Slot => if s'.id ∈ ids then { s' with used := true } else s') hs
  simp only [hid, if_true] at h2
  exact h2

theorem nodup_map_id_inj (l : List Slot) (h : (l.map Slot.id).Nodup) :
    ∀ a ∈ l, ∀ b ∈ l, a.id = b.id → a = b := by
  induction l with
  | nil => intro a ha; exact absurd ha (List.not_mem_nil a)
  | cons x l ih =>
    rw [List.map_cons, List.nodup_cons] at h
    obtain ⟨hx, hnd⟩ := h
    intro a ha b hb heq
    rcases List.mem_cons.mp ha with ha | ha <;> rcases List.mem_cons.mp hb with hb | hb
    · rw [ha, hb]
    · exfalso
      apply hx
      rw [ha] at heq
      rw [heq]
      exact List.mem_map_of_mem Slot.id hb
    · exfalso
      apply hx
      rw [hb] at heq
      rw [← heq]
      exact List.mem_map_of_mem Slot.id ha
    · exact ih hnd a ha b hb heq

theorem resolveStep_inv (σ0 : List Slot) (p : Nat) (f : Finding) (st : ResolveState)
    (hnd : (σ0.map Slot.id).Nodup) (h : ResolveInv σ0 st) :
    ResolveInv σ0 (resolveStep p st f) := by
  obtain ⟨hids, hpw, hused⟩ := h
  by_cases hsc : 90 ≤ (findBestTextMatch f.text (wordsToSearch st.slots f.source) 90).2
  · obtain ⟨hmem, hau, -, -⟩ :=
      findBest_success f.text (wordsToSearch st.slots f.source) 90 (by norm_num) hsc
    have hrunsub : ∀ s ∈ (findBestTextMatch f.text (wordsToSearch st.slots f.source) 90).1,
        s ∈ st.slots := fun s hs =>
      wordsToSearch_sub st.slots f.source s (allSlices_sub _ _ hmem s hs)
    have hrununused : ∀ s ∈ (findBestTextMatch f.text (wordsToSearch st.slots f.source) 90).1,
        s.used = false := by
      intro s hs
      by_contra hc
      have : anyUsed (findBestTextMatch f.text (wordsToSearch st.slots f.source) 90).1 = true := by
        unfold anyUsed
        rw [List.any_eq_true]
        exact ⟨s, hs, by simpa using hc⟩
      rw [hau] at this
      exact Bool.false_ne_true this
    have hndst : (st.slots.map Slot.id).Nodup := by rw [hids]; exact hnd
    have hdisj : ∀ g ∈ st.sugs,
        ∀ i ∈ g.slotIds,
          i ∉ (findBestTextMatch f.text (wordsToSearch st.slots f.source) 90).1.map Slot.id := by
      intro g hg i hi hc
      rw [List.mem_map] at hc
      obtain ⟨r, hr, hrid⟩ := hc
      have hiu := hused g hg i hi
      rw [mem_usedIds] at hiu
      obtain ⟨x, hx, hxu, hxid⟩ := hiu
      have : x = r := nodup_map_id_inj st.slots hndst x hx r (hrunsub r hr) (by rw [hxid, hrid])
      rw [this] at hxu
      rw [hrununused r hr] at hxu
      exact Bool.false_ne_true hxu
    have hnewused : ∀ i ∈ (findBestTextMatch f.text (wordsToSearch st.slots f.source) 90).1.map
        Slot.id,
        i ∈ usedIds (markUsed st.slots
          ((findBestTextMatch f.text (wordsToSearch st.slots f.source) 90).1.map Slot.id)) := by
      intro i hi
      rw [List.mem_map] at hi
      obtain ⟨r, hr, hrid⟩ := hi
      rw [← hrid]
      exact usedIds_markUsed_of_mem st.slots _ r (hrunsub r hr)
        (by rw [hrid]; exact hrid ▸ List.mem_map_of_mem Slot.id hr)
    simp only [resolveStep, if_pos hsc]
    split
    · exact ⟨by rw [markUsed_map_id]; exact hids, hpw,
        fun g hg i hi => usedIds_markUsed_super _ _ i (hused g hg i hi)⟩
    · refine ⟨by rw [markUsed_map_id]; exact hids, ?_, ?_⟩
      · rw [List.pairwise_append]
        refine ⟨hpw, List.pairwise_singleton _ _, ?_⟩
        intro g hg g' hg' i hi
        rw [List.mem_singleton] at hg'
        subst hg'
        exact hdisj g hg i hi
      · intro g hg i hi
        rw [List.mem_append] at hg
        rcases hg with hg | hg
        · exact usedIds_markUsed_super _ _ i (hused g hg i hi)
        · rw [List.mem_singleton] at hg
          subst hg
          exact hnewused i hi
  · simp only [resolveStep, if_neg hsc]
    exact ⟨hids, hpw, hused⟩

theorem resolveStep_usedIds_mono (p : Nat) (st : ResolveState) (f : Finding) :
    ∀ i ∈ usedIds st.slots, i ∈ usedIds (resolveStep p st f).slots := by
  intro i hi
  by_cases hsc : 90 ≤ (findBestTextMatch f.text (wordsToSearch st.slots f.source) 90).2
  · simp only [resolveStep, if_pos hsc]
    split
    · exact usedIds_markUsed_super _ _ i hi
    · exact usedIds_markUsed_super _ _ i hi
  · simp only [resolveStep, if_neg hsc]
    exact hi

theorem foldl_resolveStep_inv (σ0 : List Slot) (p : Nat)
    (hnd : (σ0.map Slot.id).Nodup) :
    ∀ (fs : List Finding) (st : ResolveState), ResolveInv σ0 st →
      ResolveInv σ0 (fs.foldl (resolveStep p) st) := by
  intro fs
  induction fs with
  | nil => intro st h; exact h
  | cons f fs ih =>
    intro st h
    exact ih (resolveStep p st f) (resolveStep_inv σ0 p f st hnd h)

theorem foldl_resolveStep_usedIds_mono (p : Nat) :
    ∀ (fs : List Finding) (st : ResolveState) (i : Nat),
      i ∈ usedIds st.slots → i ∈ usedIds ((fs.foldl (resolveStep p) st).slots) := by
  intro fs
  induction fs with
  | nil => intro st i h; exact h
  | cons f fs ih =>
    intro st i h
    exact ih (resolveStep p st f) i (resolveStep_usedIds_mono p st f i h)

/-- C1: in a resolution pass of `create_detailed_suggestions` over a page
whose word slots carry distinct ids, no word slot is referenced by two
different emitted suggestions (the matched-slot id lists of the emitted
suggestions are pairwise disjoint, and the rects of a suggestion are computed
only from its own matched slots), and the used flag is monotone: every slot
id marked used after any prefix of the findings list is still marked used at
the end of the pass — `used = true` is never reset within a pass. -/
theorem c1_word_exclusivity_and_used_monotone (p : Nat) (σ : List Slot)
    (fs : List Finding) (hnd : (σ.map Slot.id).Nodup) :
    List.Pairwise SugDisj (resolvePage p σ fs).sugs ∧
    (∀ fs1 fs2, fs = fs1 ++ fs2 → ∀ i, i ∈ usedIds (resolvePage p σ fs1).slots →
      i ∈ usedIds (resolvePage p σ fs).slots) := by
  constructor
  · have hinv : ResolveInv σ (resolvePage p σ fs) := by
      unfold resolvePage
      exact foldl_resolveStep_inv σ p hnd fs ⟨σ, [], 0⟩
        ⟨rfl, List.Pairwise.nil, fun g hg => absurd hg (List.not_mem_nil g)⟩
    exact hinv.2.1
  · intro fs1 fs2 hsplit i hi
    unfold resolvePage at hi ⊢
    rw [hsplit, List.foldl_append]
    exact foldl_resolveStep_usedIds_mono p fs2 (fs1.foldl (resolveStep p) ⟨σ, [], 0⟩) i hi

set_option maxRecDepth 100000 in
theorem c1_witness :
    (([(⟨0, ⟨"ab", ⟨0, 2⟩, [0, 0, 1, 0, 1, 1, 0, 1]⟩, false⟩ : Slot)].map Slot.id).Nodup) ∧
    (List.Pairwise SugDisj
      (resolvePage 0 [⟨0, ⟨"ab", ⟨0, 2⟩, [0, 0, 1, 0, 1, 1, 0, 1]⟩, false⟩]
        [⟨"ab", FindingSource.page⟩]).sugs ∧
    (∀ fs1 fs2, [(⟨"ab", FindingSource.page⟩ : Finding)] = fs1 ++ fs2 →
      ∀ i, i ∈ usedIds (resolvePage 0
          [⟨0, ⟨"ab", ⟨0, 2⟩, [0, 0, 1, 0, 1, 1, 0, 1]⟩, false⟩] fs1).slots →
        i ∈ usedIds (resolvePage 0
          [⟨0, ⟨"ab", ⟨0, 2⟩, [0, 0, 1, 0, 1, 1, 0, 1]⟩, false⟩]
          [⟨"ab", FindingSource.page⟩]).slots)) :=
  ⟨by decide,
    c1_word_exclusivity_and_used_monotone 0
      [⟨0, ⟨"ab", ⟨0, 2⟩, [0, 0, 1, 0, 1, 1, 0, 1]⟩, false⟩]
      [⟨"ab", FindingSource.page⟩] (by decide)⟩

set_option maxRecDepth 1000000 in
/-- C2 counterexample: the resolver does not sort findings by descending
normalized length.  With page words "Laura", "Bennett" (slot ids 0, 1) and
the findings in the order [ "Bennett", "Laura Bennett" ], the pass emits a
single suggestion: "Bennett" is matched first and consumes slot 1, and
"Laura Bennett" is left unmatched — the opposite of the claimed outcome in
which the two-word run goes to "Laura Bennett". -/
theorem c2_counterexample :
    (resolvePage 0
      [⟨0, ⟨"Laura", ⟨0, 5⟩, [0, 0, 1, 0, 1, 1, 0, 1]⟩, false⟩,
       ⟨1, ⟨"Bennett", ⟨6, 7⟩, [2, 0, 3, 0, 3, 1, 2, 1]⟩, false⟩]
      [⟨"Bennett", FindingSource.page⟩, ⟨"Laura Bennett", FindingSource.page⟩]).sugs.map
        (fun g => (g.text, g.slotIds)) = [("Bennett", [1])] := by
  decide

theorem c2_sugs_follow_finding_order (p : Nat) :
    ∀ (fs : List Finding) (st : ResolveState),
      ((fs.foldl (resolveStep p) st).sugs.map (fun g => g.text)).Sublist
        (st.sugs.map (fun g => g.text) ++ fs.map (fun f => f.text)) := by
  intro fs
  induction fs with
  | nil => intro st; simp
  | cons f fs ih =>
    intro st
    rw [List.foldl_cons]
    refine (ih (resolveStep p st f)).trans ?_
    by_cases hsc : 90 ≤ (findBestTextMatch f.text (wordsToSearch st.slots f.source) 90).2
    · simp only [resolveStep, if_pos hsc]
      split
      · simp only [List.map_cons]
        exact List.Sublist.append_left (List.sublist_cons_self _ _) _
      · simp only [List.map_append, List.map_cons, List.map_nil, List.append_assoc]
        exact List.Sublist.refl _
    · simp only [resolveStep, if_neg hsc, List.map_cons]
      exact List.Sublist.append_left (List.sublist_cons_self _ _) _

set_option maxRecDepth 1000000 in
/-- C2 amended: within a page the resolver matches findings in their original
(grouped) order — there is no sorting by normalized-text length: the emitted
suggestion texts always form a sublist of the finding texts in input order.
Consequently a shorter finding processed earlier can consume words needed by
a longer overlapping finding: with words "Laura", "Bennett" and findings
ordered [ "Bennett", "Laura Bennett" ], the word "Bennett" (slot 1) is
consumed by the finding "Bennett" and "Laura Bennett" ends unmatched. -/
theorem c2_amended_original_order (p : Nat) (σ : List Slot) (fs : List Finding) :
    ((resolvePage p σ fs).sugs.map (fun g => g.text)).Sublist (fs.map (fun f => f.text)) ∧
    (resolvePage 0
      [⟨0, ⟨"Laura", ⟨0, 5⟩, [0, 0, 1, 0, 1, 1, 0, 1]⟩, false⟩,
       ⟨1, ⟨"Bennett", ⟨6, 7⟩, [2, 0, 3, 0, 3, 1, 2, 1]⟩, false⟩]
      [⟨"Bennett", FindingSource.page⟩, ⟨"Laura Bennett", FindingSource.page⟩]).sugs.map
        (fun g => (g.text, g.slotIds)) = [("Bennett", [1])] := by
  constructor
  · have h := c2_sugs_follow_finding_order p fs ⟨σ, [], 0⟩
    simpa using h
  · decide

/-- C4 counterexample: the target and candidate normalizations are not the
same transformation — a double quote survives target normalization but is
stripped from candidates — and the curly possessive suffix (U+2019 followed
by s) is stripped by neither, contradicting the claimed common punctuation
set. -/
theorem c4_counterexample :
    normTarget [quoteChar] ≠ normCand [quoteChar] ∧
    normTarget [Char.ofNat 97, Char.ofNat 8217, sChar] =
      [Char.ofNat 97, Char.ofNat 8217, sChar] := by
  decide

theorem removeChar_idem (c : Char) (l : List Char) :
    removeChar c (removeChar c l) = removeChar c l := by
  simp [removeChar, List.filter_filter]

/-- C4 amended: target and candidate normalization share the lower-casing and
the stripping of straight-apostrophe possessives, remaining straight
apostrophes, periods, commas, parentheses and spaces; the candidate (and only
the candidate) is additionally stripped of double quotes, and the curly
possessive suffix ’s is stripped from neither.  The similarity function is
symmetric and yields 100 exactly when the two normalized strings are equal;
in particular target "JohnSmith" against the reconstructed candidate
"John Smith." scores 100. -/
theorem c4_amended_normalization :
    (∀ l, normCand l = removeChar quoteChar (normTarget l)) ∧
    (∀ a b, fuzzScore a b = fuzzScore b a) ∧
    (∀ a b, fuzzScore a b = 100 ↔ a = b) ∧
    candScore "JohnSmith"
      [⟨0, ⟨"John", ⟨0, 4⟩, []⟩, false⟩, ⟨1, ⟨"Smith.", ⟨5, 6⟩, []⟩, false⟩] = 100 := by
  refine ⟨?_, fuzzScore_comm, fuzzScore_eq_100_iff, ?_⟩
  · intro l
    unfold normCand
    rw [removeChar_idem, removeChar_idem]
  · decide

/-- C5: over exact rationals the two coordinate transforms are exact
algebraic inverses: for positive canvas dimensions, document dimensions and
dpi, converting canvas coordinates to document coordinates and back (and the
other way round) returns the original point exactly — in particular within
any relative tolerance. -/
theorem c5_round_trip_exact (x y cw ch pw ph dpi : ℚ)
    (hcw : 0 < cw) (hch : 0 < ch) (hpw : 0 < pw) (hph : 0 < ph) (hdpi : 0 < dpi) :
    (canvas_to_pdf_coords x y cw ch pw ph dpi).bind
      (fun q => pdf_to_canvas_coords q.1 q.2 cw ch pw ph dpi) = some (x, y) ∧
    (pdf_to_canvas_coords x y cw ch pw ph dpi).bind
      (fun q => canvas_to_pdf_coords q.1 q.2 cw ch pw ph dpi) = some (x, y) := by
  have hdpi' : dpi ≠ 0 := ne_of_gt hdpi
  have hcw' : cw ≠ 0 := ne_of_gt hcw
  have hch' : ch ≠ 0 := ne_of_gt hch
  have hw : pw * (dpi / 72) ≠ 0 := ne_of_gt (by positivity)
  have hh : ph * (dpi / 72) ≠ 0 := ne_of_gt (by positivity)
  constructor
  · simp only [canvas_to_pdf_coords, pdf_to_canvas_coords,
      if_neg hdpi', if_neg hcw', if_neg hch', if_neg hw, if_neg hh, Option.some_bind]
    congr 1
    refine Prod.ext ?_ ?_ <;> (show _ = _) <;> field_simp <;> ring
  · simp only [canvas_to_pdf_coords, pdf_to_canvas_coords,
      if_neg hdpi', if_neg hcw', if_neg hch', if_neg hw, if_neg hh, Option.some_bind]
    congr 1
    refine Prod.ext ?_ ?_ <;> (show _ = _) <;> field_simp <;> ring

theorem c5_witness :
    (0 : ℚ) < 2 ∧ (0 : ℚ) < 5 ∧ (0 : ℚ) < 7 ∧ (0 : ℚ) < 11 ∧ (0 : ℚ) < 150 ∧
    ((canvas_to_pdf_coords 3 4 2 5 7 11 150).bind
      (fun q => pdf_to_canvas_coords q.1 q.2 2 5 7 11 150) = some (3, 4) ∧
    (pdf_to_canvas_coords 3 4 2 5 7 11 150).bind
      (fun q => canvas_to_pdf_coords q.1 q.2 2 5 7 11 150) = some (3, 4)) :=
  ⟨by norm_num, by norm_num, by norm_num, by norm_num, by norm_num,
    c5_round_trip_exact 3 4 2 5 7 11 150 (by norm_num) (by norm_num) (by norm_num)
      (by norm_num) (by norm_num)⟩

/-- C9 counterexample: with negative canvas dimensions (a degenerate input,
`≤ 0`) both transforms silently return finite garbage coordinates instead of
failing fast: no error path is taken, and the returned point is meaningless
(negative). -/
theorem c9_counterexample :
    canvas_to_pdf_coords 10 10 (-5) (-5) 100 100 150 = some (-200, -200) ∧
    pdf_to_canvas_coords 10 10 (-5) (-5) 100 100 150 = some (-1/2, -1/2) := by
  constructor <;> decide

/-- C9 amended: the coordinate transforms perform no input validation at all.
`canvas_to_pdf_coords` raises `ZeroDivisionError` (modelled `none`) exactly
when `preview_dpi`, `canvas_width` or `canvas_height` is zero, and
`pdf_to_canvas_coords` exactly when `preview_dpi`, `pdf_width` or
`pdf_height` is zero; every other input — including negative dimensions and
zero document dimensions in the canvas→pdf direction — silently produces a
finite coordinate pair. -/
theorem c9_amended_no_validation (cx cy cw ch pw ph dpi : ℚ) :
    ((canvas_to_pdf_coords cx cy cw ch pw ph dpi).isNone ↔
      (dpi = 0 ∨ cw = 0 ∨ ch = 0)) ∧
    ((pdf_to_canvas_coords cx cy cw ch pw ph dpi).isNone ↔
      (dpi = 0 ∨ pw = 0 ∨ ph = 0)) := by
  constructor
  · unfold canvas_to_pdf_coords
    split_ifs with h1 h2 h3 <;> simp_all
  · simp only [pdf_to_canvas_coords]
    have h72 : (72 : ℚ) ≠ 0 := by norm_num
    split_ifs with h1 h2 <;>
      simp_all [mul_eq_zero, div_eq_zero_iff]
    tauto

/-- C8: for the square with corners (0,0), (72,0), (72,72), (0,72) in
document units, the perimeter is 288 and the Shoelace area is 5184; under
the calibration (doc 72, real 1) the conversion factor is 1/72, giving a
real perimeter of 4 (linear scaling) and a real area of 1 (factor squared). -/
theorem c8_square_measurements :
    calculate_perimeter [((0 : ℝ), (0 : ℝ)), (72, 0), (72, 72), (0, 72)] = 288 ∧
    calculate_area [((0 : ℝ), (0 : ℝ)), (72, 0), (72, 72), (0, 72)] = 5184 ∧
    measure_perimeter_values [((0 : ℝ), (0 : ℝ)), (72, 0), (72, 72), (0, 72)] ⟨72, 1⟩ =
      (288, 4) ∧
    measure_area_values [((0 : ℝ), (0 : ℝ)), (72, 0), (72, 72), (0, 72)] ⟨72, 1⟩ =
      (5184, 1) := by
  have h72 : Real.sqrt 5184 = 72 := by
    rw [show (5184 : ℝ) = 72 ^ 2 by norm_num]
    exact Real.sqrt_sq (by norm_num)
  have hper : calculate_perimeter [((0 : ℝ), (0 : ℝ)), (72, 0), (72, 72), (0, 72)] = 288 := by
    unfold calculate_perimeter
    rw [if_neg (by norm_num)]
    rw [show List.range [((0 : ℝ), (0 : ℝ)), (72, 0), (72, 72), (0, 72)].length = [0, 1, 2, 3]
      from rfl]
    simp only [List.foldl_cons, List.foldl_nil, idxPoint, calculate_distance]
    norm_num [List.getD]
    rw [h72]
    norm_num
  have harea : calculate_area [((0 : ℝ), (0 : ℝ)), (72, 0), (72, 72), (0, 72)] = 5184 := by
    unfold calculate_area
    rw [if_neg (by norm_num)]
    rw [show List.range [((0 : ℝ), (0 : ℝ)), (72, 0), (72, 72), (0, 72)].length = [0, 1, 2, 3]
      from rfl]
    simp only [List.foldl_cons, List.foldl_nil, idxPoint]
    norm_num [List.getD]
  refine ⟨hper, harea, ?_, ?_⟩
  · unfold measure_perimeter_values get_conversion_factor
    rw [hper]
    norm_num
  · unfold measure_area_values get_conversion_factor
    rw [harea]
    norm_num

theorem markUsed_used_of_mem_ids (σ : List Slot) (ids : List Nat) :
    ∀ s' ∈ markUsed σ ids, s'.id ∈ ids → s'.used = true := by
  intro s' hs' hid
  unfold markUsed at hs'
  rw [List.mem_map] at hs'
  obtain ⟨s, hs, rfl⟩ := hs'
  by_cases hin : s.id ∈ ids
  · rw [if_pos hin]
  · rw [if_neg hin] at hid
    exact absurd hid hin

/-- C10: when a finding's fuzzy match succeeds (score at least 90) but every
matched word's polygon has fewer than 8 coordinate values, the resolver still
marks every matched slot used — its state becomes exactly `markUsed` of the
matched ids, and each such slot ends with `used = true` — yet appends no
suggestion and does not advance the id counter, so the number of emitted
suggestions can be strictly smaller than the number of successfully matched
findings. -/
theorem c10_consumed_without_suggestion (p : Nat) (st : ResolveState) (f : Finding)
    (hsc : 90 ≤ (findBestTextMatch f.text (wordsToSearch st.slots f.source) 90).2)
    (hpoly : ∀ s ∈ (findBestTextMatch f.text (wordsToSearch st.slots f.source) 90).1,
      s.word.polygon.length < 8) :
    (resolveStep p st f).sugs = st.sugs ∧
    (resolveStep p st f).counter = st.counter ∧
    (resolveStep p st f).slots = markUsed st.slots
      ((findBestTextMatch f.text (wordsToSearch st.slots f.source) 90).1.map Slot.id) ∧
    (∀ s' ∈ (resolveStep p st f).slots,
      s'.id ∈ (findBestTextMatch f.text (wordsToSearch st.slots f.source) 90).1.map Slot.id →
      s'.used = true) := by
  have hrects : wordRects (findBestTextMatch f.text (wordsToSearch st.slots f.source) 90).1
      = [] := by
    unfold wordRects
    rw [List.filterMap_eq_nil]
    intro s hs
    rw [if_neg (not_le_of_lt (hpoly s hs))]
  have hstep : resolveStep p st f =
      ⟨markUsed st.slots
        ((findBestTextMatch f.text (wordsToSearch st.slots f.source) 90).1.map
          (fun s => s.id)),
       st.sugs, st.counter⟩ := by
    simp only [resolveStep, if_pos hsc, hrects, if_true]
  rw [hstep]
  refine ⟨rfl, rfl, rfl, ?_⟩
  intro s' hs' hid
  exact markUsed_used_of_mem_ids st.slots _ s' hs' hid

theorem c10_witness :
    90 ≤ (findBestTextMatch "ab"
      (wordsToSearch (⟨[⟨0, ⟨"ab", ⟨0, 2⟩, [0, 0, 1]⟩, false⟩], [], 0⟩ : ResolveState).slots
        (⟨"ab", FindingSource.page⟩ : Finding).source) 90).2 ∧
    (∀ s ∈ (findBestTextMatch "ab"
      (wordsToSearch (⟨[⟨0, ⟨"ab", ⟨0, 2⟩, [0, 0, 1]⟩, false⟩], [], 0⟩ : ResolveState).slots
        (⟨"ab", FindingSource.page⟩ : Finding).source) 90).1, s.word.polygon.length < 8) ∧
    ((resolveStep 7 ⟨[⟨0, ⟨"ab", ⟨0, 2⟩, [0, 0, 1]⟩, false⟩], [], 0⟩
        ⟨"ab", FindingSource.page⟩).sugs = [] ∧
      (resolveStep 7 ⟨[⟨0, ⟨"ab", ⟨0, 2⟩, [0, 0, 1]⟩, false⟩], [], 0⟩
        ⟨"ab", FindingSource.page⟩).counter = 0 ∧
      (resolveStep 7 ⟨[⟨0, ⟨"ab", ⟨0, 2⟩, [0, 0, 1]⟩, false⟩], [], 0⟩
        ⟨"ab", FindingSource.page⟩).slots =
        markUsed [⟨0, ⟨"ab", ⟨0, 2⟩, [0, 0, 1]⟩, false⟩]
          ((findBestTextMatch "ab"
            (wordsToSearch [⟨0, ⟨"ab", ⟨0, 2⟩, [0, 0, 1]⟩, false⟩]
              FindingSource.page) 90).1.map Slot.id) ∧
      (∀ s' ∈ (resolveStep 7 ⟨[⟨0, ⟨"ab", ⟨0, 2⟩, [0, 0, 1]⟩, false⟩], [], 0⟩
          ⟨"ab", FindingSource.page⟩).slots,
        s'.id ∈ (findBestTextMatch "ab"
          (wordsToSearch [⟨0, ⟨"ab", ⟨0, 2⟩, [0, 0, 1]⟩, false⟩]
            FindingSource.page) 90).1.map Slot.id →
        s'.used = true)) :=
  ⟨by decide, by decide,
    c10_consumed_without_suggestion 7 ⟨[⟨0, ⟨"ab", ⟨0, 2⟩, [0, 0, 1]⟩, false⟩], [], 0⟩
      ⟨"ab", FindingSource.page⟩ (by decide) (by decide)⟩

/-! ### Merger lemmas -/

theorem getLastD_irrel (l : List Rect) (h : l ≠ []) (d d' : Rect) :
    l.getLastD d = l.getLastD d' := by
  cases l with
  | nil => exact absurd rfl h
  | cons a l => rw [List.getLastD_cons, List.getLastD_cons]

theorem runLoop_chunks :
    ∀ (rest group : List Rect), group ≠ [] → List.Chain' joinsB group →
      ∃ c1 cs, runLoop group rest = (c1 :: cs).map unionList ∧
        (∃ tail, c1 = group ++ tail) ∧ ChunksOf (group ++ rest) (c1 :: cs) := by
  intro rest
  induction rest with
  | nil =>
    intro group hne hch
    refine ⟨group, [], rfl, ⟨[], (List.append_nil group).symm⟩, ?_, ?_, ?_, ?_⟩
    · simp
    · intro c hc
      rw [List.mem_singleton] at hc
      rw [hc]
      exact hne
    · intro c hc
      rw [List.mem_singleton] at hc
      rw [hc]
      exact hch
    · exact List.chain'_singleton _
  | cons r rest ih =>
    intro group hne hch
    by_cases hj : joinsB (group.getLastD r) r
    · have hch' : List.Chain' joinsB (group ++ [r]) := by
        rw [List.chain'_append]
        refine ⟨hch, List.chain'_singleton r, ?_⟩
        intro x hx y hy
        rw [Option.mem_def] at hx
        have hx' : group.getLastD r = x := by
          rw [List.getLastD_eq_getLast?, hx]
          rfl
        rw [List.head?_cons, Option.mem_def, Option.some.injEq] at hy
        rw [← hx', ← hy]
        exact hj
      obtain ⟨c1, cs, heq, ⟨tail, htail⟩, hchunks⟩ := ih (group ++ [r]) (by simp) hch'
      have hra : group ++ r :: rest = (group ++ [r]) ++ rest := by simp
      refine ⟨c1, cs, ?_, ⟨r :: tail, ?_⟩, ?_⟩
      · show runLoop group (r :: rest) = _
        simp only [runLoop]
        rw [if_pos hj]
        exact heq
      · rw [htail, List.append_assoc]
        rfl
      · rw [hra]
        exact hchunks
    · obtain ⟨c1', cs', heq', ⟨tail', htail'⟩, hj1, hne1, hch1, hbnd1⟩ :=
        ih [r] (by simp) (List.chain'_singleton r)
      refine ⟨group, c1' :: cs', ?_, ⟨[], (List.append_nil group).symm⟩, ?_, ?_, ?_, ?_⟩
      · show runLoop group (r :: rest) = _
        simp only [runLoop]
        rw [if_neg hj, heq']
        rfl
      · show (group :: c1' :: cs').join = group ++ r :: rest
        show group ++ (c1' :: cs').join = group ++ r :: rest
        rw [hj1]
        rfl
      · intro c hc
        rcases List.mem_cons.mp hc with hc | hc
        · rw [hc]; exact hne
        · exact hne1 c hc
      · intro c hc
        rcases List.mem_cons.mp hc with hc | hc
        · rw [hc]; exact hch
        · exact hch1 c hc
      · rw [List.chain'_cons]
        refine ⟨?_, hbnd1⟩
        have hhead : c1'.headD emptyRect = r := by
          rw [htail']
          rfl
        rw [hhead]
        intro hcon
        apply hj
        rw [getLastD_irrel group hne emptyRect r] at hcon
        exact hcon

/-- C6: for every input list, the merger equals the pipeline that buckets
rectangles by the rounded top coordinate `round(y0)`, processes the buckets
in ascending key order, sorts each bucket by `x0`, and partitions each sorted
bucket into runs — a rectangle joining the current run exactly when the gap
to the previous rectangle's right edge is at most 0.75 of the previous
height, each completed run being emitted as its union rectangle. -/
theorem c6_merger_characterization (rs : List Rect) :
    merge_consecutive_word_rects rs =
      (lineKeys rs).bind
        (fun k => lineMergeRects (List.insertionSort rectLE (bucket rs k))) ∧
    List.Sorted (· ≤ ·) (lineKeys rs) ∧
    (∀ k, List.Sorted rectLE (List.insertionSort rectLE (bucket rs k))) ∧
    (∀ k, (List.insertionSort rectLE (bucket rs k)).Perm (bucket rs k)) ∧
    (∀ k, ∀ r ∈ bucket rs k, pyRound r.y0 = k) ∧
    (∀ k, List.insertionSort rectLE (bucket rs k) = [] ∨
      ∃ cs, ChunksOf (List.insertionSort rectLE (bucket rs k)) cs ∧
        lineMergeRects (List.insertionSort rectLE (bucket rs k)) = cs.map unionList) := by
  refine ⟨?_, ?_, ?_, ?_, ?_, ?_⟩
  · unfold merge_consecutive_word_rects
    split
    · rename_i h
      subst h
      rfl
    · rfl
  · exact List.sorted_insertionSort (· ≤ ·) _
  · intro k
    exact List.sorted_insertionSort rectLE _
  · intro k
    exact List.perm_insertionSort rectLE _
  · intro k r hr
    unfold bucket at hr
    rw [List.mem_filter] at hr
    exact of_decide_eq_true hr.2
  · intro k
    cases hcase : List.insertionSort rectLE (bucket rs k) with
    | nil => exact Or.inl rfl
    | cons r rest =>
      refine Or.inr ?_
      obtain ⟨c1, cs, heq, -, hchunks⟩ :=
        runLoop_chunks rest [r] (by simp) (List.chain'_singleton r)
      exact ⟨c1 :: cs, hchunks, heq⟩

/-- C7 counterexample: merging is not idempotent.  On the single-line input
`[(0,0,100,1), (1,0,2,1), (50,0,60,1)]` the first pass emits the runs
`[(0,0,100,1), (50,0,60,1)]` (the gap 50 - 2 = 48 exceeds 0.75 of the
height), but the first run's union overhangs the second run, so a second
pass merges the two rectangles into one: applying the merger to its own
output changes the list. -/
theorem c7_counterexample :
    merge_consecutive_word_rects (merge_consecutive_word_rects
      [⟨0, 0, 100, 1⟩, ⟨1, 0, 2, 1⟩, ⟨50, 0, 60, 1⟩]) ≠
    merge_consecutive_word_rects [⟨0, 0, 100, 1⟩, ⟨1, 0, 2, 1⟩, ⟨50, 0, 60, 1⟩] := by
  decide

theorem unionList_singleton (r : Rect) : unionList [r] = r := by
  unfold unionList
  simp only [List.foldl_cons, List.foldl_nil]
  unfold unionRect
  rw [if_pos (by decide)]

theorem runLoop_sep :
    ∀ (rest : List Rect) (r : Rect),
      List.Chain' (fun a b => ¬ joinsB a b) (r :: rest) →
      runLoop [r] rest = r :: rest := by
  intro rest
  induction rest with
  | nil =>
    intro r _
    show [unionList [r]] = [r]
    rw [unionList_singleton]
  | cons r' rest ih =>
    intro r hch
    rw [List.chain'_cons] at hch
    obtain ⟨hnr, hch'⟩ := hch
    show runLoop [r] (r' :: rest) = _
    simp only [runLoop, List.getLastD_cons, List.getLastD_nil]
    rw [if_neg hnr, unionList_singleton, ih r' hch']

theorem dedup_const (k : ℤ) :
    ∀ (l : List ℤ), l ≠ [] → (∀ x ∈ l, x = k) → l.dedup = [k] := by
  intro l
  induction l with
  | nil => intro h; exact absurd rfl h
  | cons x l ih =>
    intro _ hall
    have hx : x = k := hall x (List.mem_cons_self x l)
    cases l with
    | nil =>
      rw [List.dedup_cons_of_not_mem (by simp), List.dedup_nil, hx]
    | cons y l' =>
      have hy : y = k := hall y (by simp)
      have hmem : x ∈ y :: l' := by
        rw [hx, ← hy]
        exact List.mem_cons_self y l'
      rw [List.dedup_cons_of_mem hmem]
      exact ih (by simp) (fun z hz => hall z (List.mem_cons_of_mem x hz))

/-- C7 amended: merging is not idempotent in general (see the counterexample:
an emitted run's union rectangle can overhang the following run, and a second
application coalesces them).  What does hold is a fixed-point property: a
line of rectangles with a common rounded top coordinate, already sorted by
`x0` and with every consecutive horizontal gap exceeding 0.75 of the previous
rectangle's height, is returned unchanged by the merger, and on such input
merging twice equals merging once. -/
theorem c7_amended_fixed_point (k : ℤ) (rs : List Rect)
    (hk : ∀ r ∈ rs, pyRound r.y0 = k)
    (hsep : List.Chain' (fun a b => rectLE a b ∧ ¬ joinsB a b) rs) :
    merge_consecutive_word_rects rs = rs ∧
    merge_consecutive_word_rects (merge_consecutive_word_rects rs) =
      merge_consecutive_word_rects rs := by
  have hfix : merge_consecutive_word_rects rs = rs := by
    cases rs with
    | nil => rfl
    | cons r0 rs0 =>
      have hne : (r0 :: rs0 : List Rect) ≠ [] := by simp
      unfold merge_consecutive_word_rects
      rw [if_neg hne]
      have hkeys : lineKeys (r0 :: rs0) = [k] := by
        unfold lineKeys
        rw [dedup_const k ((r0 :: rs0).map keyOf) (by simp) ?hall]
        · rfl
        case hall =>
          intro x hx
          rw [List.mem_map] at hx
          obtain ⟨r, hr, rfl⟩ := hx
          exact hk r hr
      have hbucket : bucket (r0 :: rs0) k = r0 :: rs0 := by
        unfold bucket
        rw [List.filter_eq_self]
        intro r hr
        rw [beq_iff_eq]
        exact hk r hr
      have hsorted : List.Sorted rectLE (r0 :: rs0) := by
        rw [List.Sorted, ← List.chain'_iff_pairwise]
        exact List.Chain'.imp (fun a b h => h.1) hsep
      rw [hkeys]
      show lineMergeRects (List.insertionSort rectLE (bucket (r0 :: rs0) k)) ++ [] =
        r0 :: rs0
      rw [List.append_nil, hbucket, hsorted.insertionSort_eq]
      show runLoop [r0] rs0 = r0 :: rs0
      exact runLoop_sep rs0 r0 (List.Chain'.imp (fun a b h => h.2) hsep)
  refine ⟨hfix, ?_⟩
  rw [hfix]
  exact hfix

theorem c7_witness :
    (∀ r ∈ [(⟨0, 0, 1, 1⟩ : Rect), ⟨10, 0, 11, 1⟩], pyRound r.y0 = 0) ∧
    List.Chain' (fun a b => rectLE a b ∧ ¬ joinsB a b)
      [(⟨0, 0, 1, 1⟩ : Rect), ⟨10, 0, 11, 1⟩] ∧
    (merge_consecutive_word_rects [(⟨0, 0, 1, 1⟩ : Rect), ⟨10, 0, 11, 1⟩] =
        [(⟨0, 0, 1, 1⟩ : Rect), ⟨10, 0, 11, 1⟩] ∧
      merge_consecutive_word_rects (merge_consecutive_word_rects
          [(⟨0, 0, 1, 1⟩ : Rect), ⟨10, 0, 11, 1⟩]) =
        merge_consecutive_word_rects [(⟨0, 0, 1, 1⟩ : Rect), ⟨10, 0, 11, 1⟩]) :=
  ⟨by decide,
    List.chain'_cons.mpr ⟨⟨by decide, by decide⟩, List.chain'_singleton _⟩,
    c7_amended_fixed_point 0 [⟨0, 0, 1, 1⟩, ⟨10, 0, 11, 1⟩] (by decide)
      (List.chain'_cons.mpr ⟨⟨by decide, by decide⟩, List.chain'_singleton _⟩)⟩
